import Mathlib

/-!
Verification of the core MCTS library of the dream-go engine.

The Rust sources under `src/src/libdg_mcts` are embedded shallowly:

* `f32` scalars are idealized as rationals; the IEEE special values that the
  code relies on (`-inf`, `+inf`, `NaN`) are carried explicitly by the
  `FVal` type, whose addition mirrors IEEE addition (infinities absorb,
  opposite infinities and `NaN` produce `NaN`).
* Vectors indexed by packed move indices become functions out of `Fin`.
* External collaborators (the Go board, the symmetry module, the random
  number generator, the Dirichlet sampler) that are not part of the sources
  are represented by their observable behaviour; every such definition is
  marked `Modelled from the spec:` in its doc comment.
-/

/-- Model of an `f32` value as used by the policy code: a finite rational,
one of the two infinities, or `NaN`. -/
inductive FVal where
  | finite (x : ℚ)
  | negInf
  | posInf
  | nan
deriving DecidableEq

namespace FVal

/-- IEEE-754 addition on the idealized `f32` model: `NaN` propagates,
opposite infinities give `NaN`, an infinity absorbs finite values, and
finite values add as rationals. -/
def add : FVal → FVal → FVal
  | nan, _ => nan
  | _, nan => nan
  | negInf, posInf => nan
  | posInf, negInf => nan
  | negInf, _ => negInf
  | _, negInf => negInf
  | posInf, _ => posInf
  | _, posInf => posInf
  | finite a, finite b => finite (a + b)

/-- `v.isFinite` holds exactly on `finite` values. -/
def isFinite : FVal → Bool
  | finite _ => true
  | _ => false

/-- The finite part of a value; non-finite values contribute `0`
(mirrors how `sum_finite_f32` skips non-finite entries). -/
def finitePart : FVal → ℚ
  | finite x => x
  | _ => 0

end FVal

/-- The stone colors (`dg_go::Color`). -/
inductive Color where
  | black
  | white
deriving DecidableEq

namespace Options

/-- Modelled from the spec: the external Go board is an opaque collaborator;
for `is_eye` only `board.at` is observed, so a board is a map from integer
coordinates to an optional stone color (off-board points carry `none`). -/
def GoBoard : Type := ℤ × ℤ → Option Color

/-- Modelled from the spec: `board.is_part_of(point)` checks that the point
lies on the 19×19 board. -/
def is_part_of (p : ℤ × ℤ) : Bool :=
  0 ≤ p.1 && p.1 ≤ 18 && 0 ≤ p.2 && p.2 ≤ 18

/-- Returns true if the vertex at offset `(dx, dy)` from `point` is occupied
by a stone of color `color` (embeds `is_vertex_filled` from
`libdg_mcts/options.rs`). -/
def is_vertex_filled (board : GoBoard) (color : Color) (point : ℤ × ℤ)
    (dx dy : ℤ) : Bool :=
  let other := (point.1 + dx, point.2 + dy)
  is_part_of other && board other == some color

/-- The four orthogonal offsets checked by `is_eye`. -/
def CROSS : List (ℤ × ℤ) := [(1, 0), (-1, 0), (0, 1), (0, -1)]

/-- The four diagonal offsets checked by `is_eye`. -/
def DIAGONAL : List (ℤ × ℤ) := [(1, 1), (1, -1), (-1, 1), (-1, -1)]

/-- Returns true if playing at `point` would fill an own eye (embeds
`is_eye` from `libdg_mcts/options.rs`): the required number of filled
orthogonal and diagonal neighbours depends on whether the point is in a
corner, on an edge, or in the middle of the board. -/
def is_eye (board : GoBoard) (color : Color) (point : ℤ × ℤ) : Bool :=
  let num_cross :=
    (CROSS.filter (fun d => is_vertex_filled board color point d.1 d.2)).length
  let num_diagonal :=
    (DIAGONAL.filter (fun d => is_vertex_filled board color point d.1 d.2)).length
  let x := point.1
  let y := point.2
  if (x == 0 || x == 18) && (y == 0 || y == 18) then
    num_cross ≥ 2 && num_diagonal ≥ 1
  else if x == 0 || x == 18 || y == 0 || y == 18 then
    num_cross ≥ 3 && num_diagonal ≥ 2
  else
    num_cross ≥ 4 && num_diagonal ≥ 3

/-- The board of the `corner` unit test: black stones at `(1,0)`, `(0,1)`
and `(1,1)`, everything else empty. -/
def cornerBoard : GoBoard := fun p =>
  if p = (1, 0) || p = (0, 1) || p = (1, 1) then some Color.black else none

end Options

namespace Mcts

/-- Modelled from the spec: the symmetry module is not among the sources.
The eight symmetries of the square, in the order the spec lists them. -/
inductive Transform where
  | identity
  | flipLR
  | flipUD
  | transpose
  | transposeAnti
  | rot90
  | rot180
  | rot270
deriving DecidableEq

/-- Modelled from the spec: a point is addressed by its packed index
`19 * y + x` with `x = i % 19` and `y = i / 19`; each transform acts on
the coordinates of the 19×19 board and `to_packed_index` repacks them. -/
def Transform.apply : Transform → Fin 361 → Fin 361
  | .identity, p => p
  | .flipLR, p => ⟨19 * (p.val / 19) + (18 - p.val % 19), by have := p.isLt; omega⟩
  | .flipUD, p => ⟨19 * (18 - p.val / 19) + p.val % 19, by have := p.isLt; omega⟩
  | .transpose, p => ⟨19 * (p.val % 19) + p.val / 19, by have := p.isLt; omega⟩
  | .transposeAnti, p =>
      ⟨19 * (18 - p.val % 19) + (18 - p.val / 19), by have := p.isLt; omega⟩
  | .rot90, p => ⟨19 * (p.val % 19) + (18 - p.val / 19), by have := p.isLt; omega⟩
  | .rot180, p =>
      ⟨19 * (18 - p.val / 19) + (18 - p.val % 19), by have := p.isLt; omega⟩
  | .rot270, p => ⟨19 * (18 - p.val % 19) + p.val / 19, by have := p.isLt; omega⟩

/-- Modelled from the spec: each transform provides its inverse; the
rotations by 90 and 270 degrees are mutually inverse and every other
element of the dihedral group is an involution. -/
def Transform.inverse : Transform → Transform
  | .identity => .identity
  | .flipLR => .flipLR
  | .flipUD => .flipUD
  | .transpose => .transpose
  | .transposeAnti => .transposeAnti
  | .rot90 => .rot270
  | .rot180 => .rot180
  | .rot270 => .rot90

/-- `symmetry::ALL`, in the order the spec lists the transforms. -/
def ALL : List Transform :=
  [.identity, .flipLR, .flipUD, .transpose, .transposeAnti, .rot90, .rot180, .rot270]

/-- A board point index viewed inside a policy vector of length 362. -/
def pt362 (p : Fin 361) : Fin 362 :=
  ⟨p.val, by have := p.isLt; omega⟩

/-- The pass move, packed index 361, inside a policy vector of length 362. -/
def pass362 : Fin 362 := ⟨361, by omega⟩

/-- The pass move inside a padded policy buffer of length 368. -/
def pass368 : Fin 368 := ⟨361, by omega⟩

/-- The first phase of `create_initial_policy`: a 368-entry buffer, all
`-inf`, with the entries accepted by the policy checker set to `0.0`.  The
opaque board, color and search options are observed only through
`is_policy_candidate`, the `candidate` predicate over the 362 packed move
indices (index 361 standing for the pass probe on `Point::default()`). -/
def initialPolicy0 (candidate : Fin 362 → Bool) : Fin 368 → FVal := fun i =>
  if h : i.val < 362 then
    if candidate ⟨i.val, h⟩ then FVal.finite 0 else FVal.negInf
  else FVal.negInf

/-- The `symmetries` list of `create_initial_policy`: the transforms under
which the board is self-symmetric. -/
def symmetriesOf (symmB : Transform → Bool) : List Transform :=
  ALL.filter (fun t => symmB t)

/-- The `target` computed for each point by `create_initial_policy`: the
minimum packed index of the point's orbit under `symmetriesOf`. -/
def targetOf (symmB : Transform → Bool) (p : Fin 361) : Option ℕ :=
  ((symmetriesOf symmB).map (fun t => (Transform.apply t p).val)).min?

/-- Embeds `create_initial_policy` from `libdg_mcts/lib.rs`: the policy
buffer from `initialPolicy0` with every point that is not the minimum
packed index of its orbit (its `targetOf`) reset to `-inf`, paired with
the symmetry elimination map `indices` (`indices[361] = 361`).  The
`unreachable!()` arm of the source (an empty symmetry list) leaves the
index at its initial `0` and the policy entry untouched;
`symmetry::is_symmetric(board, ·)` is the opaque predicate `symmB`.
`maskedEntry` is the per-point body of the masking loop. -/
def maskedEntry (candidate : Fin 362 → Bool) (symmB : Transform → Bool)
    (p : Fin 361) : FVal :=
  match targetOf symmB p with
  | some tgt =>
      if p.val ≠ tgt then FVal.negInf
      else initialPolicy0 candidate ⟨p.val, by have := p.isLt; omega⟩
  | none => initialPolicy0 candidate ⟨p.val, by have := p.isLt; omega⟩

def create_initial_policy (candidate : Fin 362 → Bool)
    (symmB : Transform → Bool) : (Fin 368 → FVal) × (Fin 362 → ℕ) :=
  (fun i =>
    if h : i.val < 361 then maskedEntry candidate symmB ⟨i.val, h⟩
    else initialPolicy0 candidate i,
   fun i =>
    if h : i.val < 361 then (targetOf symmB ⟨i.val, h⟩).getD 0 else 361)

/-- Embeds `add_valid_candidates` from `libdg_mcts/lib.rs`: add the pass
entry of `src` to `dst[361]`, then for every board point `p` add `src[p]`
to `dst[indices[t⁻¹(p)]]`.  The `usize` entries of `indices` are typed as
in-bounds indices of the 368-entry destination, as the `dst[j]` accesses
of the source require. -/
def add_valid_candidates (dst : Fin 368 → FVal) (src : Fin 362 → FVal)
    (indices : Fin 362 → Fin 368) (t : Transform) : Fin 368 → FVal :=
  (List.finRange 361).foldl
    (fun d p =>
      Function.update d (indices (pt362 (Transform.apply (Transform.inverse t) p)))
        ((d (indices (pt362 (Transform.apply (Transform.inverse t) p)))).add
          (src (pt362 p))))
    (Function.update dst pass368 ((dst pass368).add (src pass362)))

/-- The additions that `add_valid_candidates` directs at destination entry
`j`, in loop order: the pass entry of `src` when `j` is the pass entry,
then `src[p]` for every board point `p` whose de-transformed point maps to
`j` under the symmetry elimination map. -/
def contribsOf (src : Fin 362 → FVal) (indices : Fin 362 → Fin 368)
    (t : Transform) (j : Fin 368) : List FVal :=
  (if j = pass368 then [src pass362] else []) ++
  ((List.finRange 361).filter
    (fun p => decide (indices (pt362 (Transform.apply (Transform.inverse t) p)) = j))).map
    (fun p => src (pt362 p))

/-- Modelled from the spec: `asm::sum_finite_f32` is not among the
sources; it sums the finite entries of the policy buffer. -/
def sum_finite_f32 (policy : Fin 368 → FVal) : ℚ :=
  ∑ i : Fin 368, (policy i).finitePart

/-- Modelled from the spec: `asm::normalize_finite_f32` is not among the
sources; it divides every finite entry by `policy_sum` and leaves the
non-finite entries alone. -/
def normalize_finite_f32 (policy : Fin 368 → FVal) (policy_sum : ℚ) :
    Fin 368 → FVal := fun i =>
  match policy i with
  | .finite x => .finite (x / policy_sum)
  | v => v

/-- Modelled from the spec: `dirichlet::add_ex(&mut policy[0..362], 0.03,
1.0)` is not among the sources; with scale `1.0` it injects a fresh
Dirichlet(0.03) draw across the 362 positions, producing a valid
distribution there.  The draw is passed explicitly as `noise`; its
components are strictly positive almost surely, which theorems take as a
hypothesis. -/
def dirichlet_add_ex (noise : Fin 362 → ℚ) (policy : Fin 368 → FVal) :
    Fin 368 → FVal := fun i =>
  if h : i.val < 362 then FVal.finite (noise ⟨i.val, h⟩) else policy i

/-- Embeds `normalize_policy` from `libdg_mcts/lib.rs`: sum the finite
entries; below the `1e-6` threshold inject Dirichlet noise, otherwise
divide the finite entries by the sum. -/
def normalize_policy (noise : Fin 362 → ℚ) (policy : Fin 368 → FVal) :
    Fin 368 → FVal :=
  if sum_finite_f32 policy < 1/1000000 then
    dirichlet_add_ex noise policy
  else
    normalize_finite_f32 policy (sum_finite_f32 policy)

/-- Modelled from the spec: `tree::Node` is not among the sources.  The
starting-tree adoption step observes only the node's `to_move` and its
prior buffer (368 entries, of which the first 362 are the policy). -/
structure TNode where
  to_move : Color
  initial_value : ℚ
  prior : Fin 368 → FVal

/-- Modelled from the spec: `tree::Node::new(to_move, value, prior)`. -/
def TNode.new (to_move : Color) (value : ℚ) (prior : Fin 368 → FVal) : TNode :=
  ⟨to_move, value, prior⟩

/-- Embeds the starting-tree adoption step of `predict_aux`
(`libdg_mcts/lib.rs`, lines 510–522): with a supplied tree, the
`assert_eq!(starting_tree.to_move, starting_color)` panic is modelled as
`none`; on a match the tree is adopted with `prior[0..362]` overwritten by
the freshly computed policy; with no supplied tree a fresh root is
created. -/
def adopt_starting_tree (starting_tree : Option TNode) (starting_color : Color)
    (starting_value : ℚ) (starting_policy : Fin 368 → FVal) : Option TNode :=
  match starting_tree with
  | some t =>
    if t.to_move = starting_color then
      some { t with
             prior := fun i =>
               if i.val < 362 then starting_policy i else t.prior i }
    else
      none
  | none => some (TNode.new starting_color starting_value starting_policy)

/-- A starting tree whose `to_move` is White. -/
def whiteTree : TNode := ⟨Color.white, 0, fun _ => FVal.negInf⟩

/-- The policy buffer that is `NaN` at index 0, `1.0` at index 1 and
`-inf` everywhere else; its finite entries sum to `1`. -/
def nanPolicy : Fin 368 → FVal := fun i =>
  if i.val = 0 then FVal.nan
  else if i.val = 1 then FVal.finite 1
  else FVal.negInf

/-- A degenerate-path Dirichlet draw used by concrete instances. -/
def unitNoise : Fin 362 → ℚ := fun _ => 1

/-- The policy buffer that is `-inf` everywhere. -/
def negInfPolicy : Fin 368 → FVal := fun _ => FVal.negInf

/-- Embeds `get_random_komi` from `libdg_mcts/lib.rs` as a function of the
underlying random draws: `u` is the uniform `f32` draw from `[0,1)` and
`k` is the integer drawn by `gen_range(-8..8)` (only consumed on the last
branch). -/
def get_random_komi (u : ℚ) (k : ℤ) : ℚ :=
  if u < 2/5 then
    15/2
  else if u < 4/5 then
    13/2
  else if u < 9/10 then
    1/2
  else
    (k : ℚ) + 1/2

end Mcts

namespace TimeControl

/-- Embeds `TimeStrategyResult` from `time_control/mod.rs`. -/
inductive TimeStrategyResult where
  | NotExpired (remaining : ℕ)
  | NotExtended
  | Expired
  | Extended
deriving DecidableEq

/-- Modelled from the spec: `tree::Node` is not among the sources.  Time
control observes only the root's `total_count` and the per-edge real visit
counts of its children table; `children` lists the edges' `visit_count`
by packed move index (0 for an unexpanded edge). -/
structure Node where
  total_count : ℕ
  children : List ℕ
deriving DecidableEq

/-- The visit count of the edge at index `i` (0 beyond the table). -/
def count (cs : List ℕ) (i : ℕ) : ℕ :=
  cs.getD i 0

/-- Modelled from the spec: `Children::argmax_count` picks the index with
the highest real visit count, ties broken toward the lower index. -/
def argmax_count (cs : List ℕ) : ℕ :=
  (List.range cs.length).foldl
    (fun best i => if count cs i > count cs best then i else best) 0

/-- Modelled from the spec: `Children::nonzero` yields the indices of the
edges with a nonzero visit count. -/
def nonzero (cs : List ℕ) : List ℕ :=
  (List.range cs.length).filter (fun i => count cs i != 0)

/-- Embeds `min_promote_rollouts` from `time_control/mod.rs`: the minimum
number of playouts needed for the second most visited child to become the
most visited child (0 under the race the source tolerates). -/
def min_promote_rollouts (root : Node) : ℕ :=
  let top_1 := argmax_count root.children
  let top_2 := (nonzero root.children).foldl
    (fun top_2 i =>
      if i ≠ top_1 ∧ count root.children i > count root.children top_2 then i
      else top_2)
    (if top_1 = 0 then 1 else 0)
  if count root.children top_1 > count root.children top_2 then
    count root.children top_1 - count root.children top_2
  else
    0

/-- Embeds `is_done` from `time_control/mod.rs`; the opaque `TimeStrategy`
trait object is modelled as a function from the root to the result of its
`try_extend`. -/
def is_done (root : Node) (ticket : Node → TimeStrategyResult) : Bool :=
  if root.total_count = 0 then
    false
  else
    match ticket root with
    | .NotExpired remaining => min_promote_rollouts root > remaining
    | .Extended => false
    | _ => true

/-- A root node with no completed playouts. -/
def zeroRoot : Node := ⟨0, List.replicate 362 0⟩

/-- A time strategy whose period has expired. -/
def expiredStrategy : Node → TimeStrategyResult := fun _ => .Expired

end TimeControl

namespace Batching

/-- `FEATURE_SIZE` from `go/features.rs`: `NUM_FEATURES * 361` with
`NUM_FEATURES = 32`. -/
def FEATURE_SIZE : ℕ := 32 * 361

/-- The configuration of a `Batcher` (`libdg_mcts/lib.rs`): the maximum
size of one batch (`config::BATCH_SIZE`) and the maximum number of batches
allowed to be in flight at the same time. -/
structure BatcherCfg where
  max_batch_size : ℕ
  max_batches : ℕ

/-- Embeds `BatcherList` from `libdg_mcts/lib.rs`: the flattened feature
values and the events gathered so far.  The feature scalar type (`f16` in
the source) and the event type are opaque payloads, modelled by the type
parameters `φ` and `ε`. -/
structure BatcherList (ε φ : Type) where
  features : List φ
  events : List ε

/-- The state of a `Batcher`: the pending list together with the atomic
`num_batches` counter.  The mutex and the atomic are modelled by plain
sequential state. -/
structure BatcherState (ε φ : Type) where
  list : BatcherList ε φ
  num_batches : ℕ

/-- Embeds `Batcher::push`: append the features and the event to the
pending list. -/
def push (s : BatcherState ε φ) (event : ε) (features : List φ) :
    BatcherState ε φ :=
  { s with
    list := ⟨s.list.features ++ features, s.list.events ++ [event]⟩ }

/-- A harvested batch (embeds `Batch` from `libdg_mcts/lib.rs` without the
shared counter reference, whose decrement is modelled as a separate state
transition). -/
structure Batch (ε φ : Type) where
  features : List φ
  events : List ε

/-- The index at which `get_batch` splits the pending list: everything from
`split_index` on (the last `min(size, max_batch_size)` events) becomes the
batch. -/
def splitIndex (cfg : BatcherCfg) (size : ℕ) : ℕ :=
  if size ≥ cfg.max_batch_size then size - cfg.max_batch_size else 0

/-- Embeds `Batcher::get_batch`: if the number of in-flight batches is
below `max_batches` and at least `min_batch_size` events are pending,
increment the counter and split off the last `min(pending, max_batch_size)`
events with their features; otherwise return nothing.  The
`compare_exchange_weak` succeeds in this sequential model. -/
def get_batch (cfg : BatcherCfg) (s : BatcherState ε φ)
    (min_batch_size : ℕ) : Option (Batch ε φ × BatcherState ε φ) :=
  if s.num_batches ≥ cfg.max_batches then
    none
  else if s.list.events.length ≥ min_batch_size then
    some
      (⟨s.list.features.drop (splitIndex cfg s.list.events.length * FEATURE_SIZE),
        s.list.events.drop (splitIndex cfg s.list.events.length)⟩,
       { list := ⟨s.list.features.take (splitIndex cfg s.list.events.length * FEATURE_SIZE),
                  s.list.events.take (splitIndex cfg s.list.events.length)⟩,
         num_batches := s.num_batches + 1 })
  else
    none

/-- Embeds `Batcher::push_and_get_batch`: push, then attempt to harvest a
batch of at least `max_batch_size` events. -/
def push_and_get_batch (cfg : BatcherCfg) (s : BatcherState ε φ)
    (event : ε) (features : List φ) : Option (Batch ε φ × BatcherState ε φ) :=
  get_batch cfg (push s event features) cfg.max_batch_size

/-- The batcher state whose pending list holds exactly the event/feature
pairs `ps` (in push order) with `nb` batches in flight; every state
reachable by pushes and harvests has this shape. -/
def stateOf (ps : List (ε × List φ)) (nb : ℕ) : BatcherState ε φ :=
  { list := ⟨(ps.map Prod.snd).flatten, ps.map Prod.fst⟩, num_batches := nb }

/-- The pending-list invariant: the flattened feature buffer holds exactly
`FEATURE_SIZE` values per pending event. -/
def listInv (s : BatcherState ε φ) : Prop :=
  s.list.features.length = FEATURE_SIZE * s.list.events.length

/-- The batcher states reachable from a fresh `Batcher` by pushes (of
well-sized feature tensors), harvests, and batch completions (which
decrement the in-flight counter, as `Batch::forward` does). -/
inductive Reachable (cfg : BatcherCfg) : BatcherState ε φ → Prop where
  | init : Reachable cfg ⟨⟨[], []⟩, 0⟩
  | push (s : BatcherState ε φ) (e : ε) (f : List φ) :
      Reachable cfg s → f.length = FEATURE_SIZE → Reachable cfg (push s e f)
  | harvest (s : BatcherState ε φ) (m : ℕ) (b : Batch ε φ) (s1 : BatcherState ε φ) :
      Reachable cfg s → get_batch cfg s m = some (b, s1) → Reachable cfg s1
  | complete (s : BatcherState ε φ) (n : ℕ) :
      Reachable cfg s → s.num_batches = n + 1 →
      Reachable cfg { s with num_batches := n }

end Batching

/- ### Theorems ### -/

namespace Batching

/-- Dropping `k` whole blocks from a flattened list of `n`-sized blocks is
dropping `k * n` scalars. -/
theorem flatten_drop_const (ls : List (List φ)) (n : ℕ)
    (h : ∀ l ∈ ls, l.length = n) (k : ℕ) :
    (ls.drop k).flatten = ls.flatten.drop (k * n) := by
  induction ls generalizing k with
  | nil => simp
  | cons a tl ih =>
    cases k with
    | zero => simp
    | succ k =>
      have ha : a.length = n := h a (by simp)
      have htl : ∀ l ∈ tl, l.length = n := fun l hl => h l (by simp [hl])
      simp only [List.drop_succ_cons, List.flatten_cons]
      rw [ih htl k, Nat.succ_mul, Nat.add_comm (k * n) n, List.drop_append_eq_append_drop]
      simp [ha]

/-- Taking `k` whole blocks from a flattened list of `n`-sized blocks is
taking `k * n` scalars. -/
theorem flatten_take_const (ls : List (List φ)) (n : ℕ)
    (h : ∀ l ∈ ls, l.length = n) (k : ℕ) :
    (ls.take k).flatten = ls.flatten.take (k * n) := by
  induction ls generalizing k with
  | nil => simp
  | cons a tl ih =>
    cases k with
    | zero => simp
    | succ k =>
      have ha : a.length = n := h a (by simp)
      have htl : ∀ l ∈ tl, l.length = n := fun l hl => h l (by simp [hl])
      simp only [List.take_succ_cons, List.flatten_cons]
      rw [ih htl k, Nat.succ_mul, Nat.add_comm (k * n) n, List.take_append_eq_append_take]
      simp [ha]

/-- The flattened features of `n`-sized blocks have length `n * blocks`. -/
theorem flatten_length_const (ls : List (List φ)) (n : ℕ)
    (h : ∀ l ∈ ls, l.length = n) :
    ls.flatten.length = n * ls.length := by
  induction ls with
  | nil => simp
  | cons a tl ih =>
    have ha : a.length = n := h a (by simp)
    have htl : ∀ l ∈ tl, l.length = n := fun l hl => h l (by simp [hl])
    simp [ha, ih htl, Nat.mul_succ, Nat.add_comm]

/-- Evaluation of `get_batch` when both guards pass. -/
theorem get_batch_eval (cfg : BatcherCfg) (s : BatcherState ε φ) (m : ℕ)
    (h1 : s.num_batches < cfg.max_batches) (h2 : m ≤ s.list.events.length) :
    get_batch cfg s m =
      some
        (⟨s.list.features.drop (splitIndex cfg s.list.events.length * FEATURE_SIZE),
          s.list.events.drop (splitIndex cfg s.list.events.length)⟩,
         { list := ⟨s.list.features.take (splitIndex cfg s.list.events.length * FEATURE_SIZE),
                    s.list.events.take (splitIndex cfg s.list.events.length)⟩,
           num_batches := s.num_batches + 1 }) := by
  unfold get_batch
  rw [if_neg (by omega), if_pos (by omega)]

/-- `get_batch` yields nothing exactly when a guard fails. -/
theorem get_batch_isSome (cfg : BatcherCfg) (s : BatcherState ε φ) (m : ℕ) :
    (get_batch cfg s m).isSome ↔
      s.num_batches < cfg.max_batches ∧ m ≤ s.list.events.length := by
  unfold get_batch
  split_ifs with h1 h2 <;> simp <;> omega

/-- The split index never exceeds the pending size. -/
theorem splitIndex_le (cfg : BatcherCfg) (size : ℕ) :
    splitIndex cfg size ≤ size := by
  unfold splitIndex
  split <;> omega

/-- **C3**: on any batcher state whose pending list holds the pushed
events `ps` with their features (each of size `FEATURE_SIZE`) and whose
in-flight counter is `nb`, `get_batch min_size` succeeds exactly when
`nb < max_batches` and at least `min_size` events are pending; on success
it increments the counter, returns exactly the last
`min(pending, max_batch_size)` pushed events together with their features,
and removes them from the pending list.  `push` keeps the state in this
shape, so the statement covers every state reachable by pushes and
harvests. -/
theorem get_batch_spec (cfg : BatcherCfg) (ps : List (ε × List φ))
    (nb min_size : ℕ)
    (hfs : ∀ pr ∈ ps, (Prod.snd pr).length = FEATURE_SIZE) :
    ((get_batch cfg (stateOf ps nb) min_size).isSome ↔
      nb < cfg.max_batches ∧ min_size ≤ ps.length) ∧
    (nb < cfg.max_batches → min_size ≤ ps.length →
      get_batch cfg (stateOf ps nb) min_size =
        some
          (⟨((ps.drop (splitIndex cfg ps.length)).map Prod.snd).flatten,
            (ps.drop (splitIndex cfg ps.length)).map Prod.fst⟩,
           stateOf (ps.take (splitIndex cfg ps.length)) (nb + 1)) ∧
      (ps.drop (splitIndex cfg ps.length)).length =
        min ps.length cfg.max_batch_size) ∧
    (∀ (e : ε) (f : List φ),
      push (stateOf ps nb) e f = stateOf (ps ++ [(e, f)]) nb) := by
  have hlen : ∀ l ∈ ps.map Prod.snd, l.length = FEATURE_SIZE := by
    intro l hl
    rcases List.mem_map.1 hl with ⟨pr, hpr, rfl⟩
    exact hfs pr hpr
  have hev : (stateOf ps nb : BatcherState ε φ).list.events = ps.map Prod.fst := rfl
  have hftr : (stateOf ps nb : BatcherState ε φ).list.features =
      (ps.map Prod.snd).flatten := rfl
  have hnb : (stateOf ps nb : BatcherState ε φ).num_batches = nb := rfl
  have hevlen : (stateOf ps nb : BatcherState ε φ).list.events.length = ps.length := by
    rw [hev, List.length_map]
  refine ⟨?_, ?_, ?_⟩
  · rw [get_batch_isSome, hnb, hevlen]
  · intro h1 h2
    rw [get_batch_eval cfg _ min_size (by omega) (by omega)]
    simp only [hev, hftr, hnb, List.length_map]
    refine ⟨?_, ?_⟩
    · have hdropf : ((ps.map Prod.snd).flatten).drop
          (splitIndex cfg ps.length * FEATURE_SIZE) =
          ((ps.drop (splitIndex cfg ps.length)).map Prod.snd).flatten := by
        rw [List.map_drop, flatten_drop_const _ FEATURE_SIZE hlen]
      have htakef : ((ps.map Prod.snd).flatten).take
          (splitIndex cfg ps.length * FEATURE_SIZE) =
          ((ps.take (splitIndex cfg ps.length)).map Prod.snd).flatten := by
        rw [List.map_take, flatten_take_const _ FEATURE_SIZE hlen]
      rw [hdropf, htakef]
      simp [stateOf, List.map_drop, List.map_take]
    · rw [List.length_drop]
      have := splitIndex_le cfg ps.length
      unfold splitIndex at this ⊢
      split <;> omega
  · intro e f
    simp [push, stateOf]

/-- Witness for **C3**: the empty batcher with `max_batch_size = 4`,
`max_batches = 1`, queried with `min_size = 0`. -/
theorem get_batch_spec_witness :
    ((get_batch ⟨4, 1⟩ (stateOf ([] : List (ℕ × List ℕ)) 0) 0).isSome ↔
      0 < (1 : ℕ) ∧ 0 ≤ ([] : List (ℕ × List ℕ)).length) ∧
    (0 < (1 : ℕ) → 0 ≤ ([] : List (ℕ × List ℕ)).length →
      get_batch ⟨4, 1⟩ (stateOf ([] : List (ℕ × List ℕ)) 0) 0 =
        some
          (⟨(((([] : List (ℕ × List ℕ))).drop
                (splitIndex ⟨4, 1⟩ ([] : List (ℕ × List ℕ)).length)).map Prod.snd).flatten,
            ((([] : List (ℕ × List ℕ)).drop
                (splitIndex ⟨4, 1⟩ ([] : List (ℕ × List ℕ)).length)).map Prod.fst)⟩,
           stateOf (([] : List (ℕ × List ℕ)).take
              (splitIndex ⟨4, 1⟩ ([] : List (ℕ × List ℕ)).length)) 1) ∧
      (([] : List (ℕ × List ℕ)).drop
          (splitIndex ⟨4, 1⟩ ([] : List (ℕ × List ℕ)).length)).length =
        min ([] : List (ℕ × List ℕ)).length (4 : ℕ)) ∧
    (∀ (e : ℕ) (f : List ℕ),
      push (stateOf ([] : List (ℕ × List ℕ)) 0) e f =
        stateOf (([] : List (ℕ × List ℕ)) ++ [(e, f)]) 0) :=
  get_batch_spec ⟨4, 1⟩ [] 0 0 (by simp)

/-- A push of a well-sized feature tensor preserves the pending-list
invariant. -/
theorem listInv_push (s : BatcherState ε φ) (e : ε) (f : List φ)
    (hinv : listInv s) (hf : f.length = FEATURE_SIZE) :
    listInv (push s e f) := by
  unfold listInv push at *
  simp only [List.length_append, List.length_cons, List.length_nil]
  rw [hinv, hf, Nat.mul_succ]

/-- A successful `get_batch` on an invariant-respecting state yields a
batch of at most `max_batch_size` events carrying `FEATURE_SIZE` feature
values per event, and the remaining state keeps the invariant. -/
theorem get_batch_bounds (cfg : BatcherCfg) (s : BatcherState ε φ)
    (m : ℕ) (b : Batch ε φ) (s1 : BatcherState ε φ)
    (hinv : listInv s) (h : get_batch cfg s m = some (b, s1)) :
    b.events.length ≤ cfg.max_batch_size ∧
    b.features.length = FEATURE_SIZE * b.events.length ∧
    listInv s1 := by
  have hsome : (get_batch cfg s m).isSome := by rw [h]; rfl
  rw [get_batch_isSome] at hsome
  rw [get_batch_eval cfg s m hsome.1 hsome.2, Option.some_inj] at h
  have hb := congrArg Prod.fst h
  have hs1 := congrArg Prod.snd h
  simp only at hb hs1
  have hk := splitIndex_le cfg s.list.events.length
  unfold listInv at hinv
  refine ⟨?_, ?_, ?_⟩
  · rw [← hb]
    simp only [List.length_drop]
    unfold splitIndex at *
    split <;> omega
  · rw [← hb]
    simp only [List.length_drop, hinv, FEATURE_SIZE] at *
    omega
  · rw [← hs1]
    unfold listInv
    simp only [List.length_take, hinv, FEATURE_SIZE] at *
    omega

/-- Every reachable batcher state satisfies the pending-list invariant. -/
theorem reachable_listInv (cfg : BatcherCfg) (s : BatcherState ε φ)
    (h : Reachable cfg s) : listInv s := by
  induction h with
  | init => simp [listInv]
  | push s e f _ hf ih => exact listInv_push s e f ih hf
  | harvest s m b s1 _ hgb ih => exact (get_batch_bounds cfg s m b s1 ih hgb).2.2
  | complete s n _ _ ih => exact ih

/-- **C10**: on every batcher state reachable by pushes (each supplying
exactly `FEATURE_SIZE` feature values), harvests and batch completions,
the pending feature buffer holds exactly `FEATURE_SIZE` values per pending
event, and every batch returned by `get_batch` or `push_and_get_batch`
contains at most `max_batch_size` events with exactly `FEATURE_SIZE`
feature values per contained event. -/
theorem batcher_invariant_spec (cfg : BatcherCfg) (s : BatcherState ε φ)
    (h : Reachable cfg s) :
    s.list.features.length = FEATURE_SIZE * s.list.events.length ∧
    (∀ (m : ℕ) (b : Batch ε φ) (s1 : BatcherState ε φ),
      get_batch cfg s m = some (b, s1) →
      b.events.length ≤ cfg.max_batch_size ∧
      b.features.length = FEATURE_SIZE * b.events.length) ∧
    (∀ (e : ε) (f : List φ) (b : Batch ε φ) (s1 : BatcherState ε φ),
      f.length = FEATURE_SIZE →
      push_and_get_batch cfg s e f = some (b, s1) →
      b.events.length ≤ cfg.max_batch_size ∧
      b.features.length = FEATURE_SIZE * b.events.length) := by
  have hinv := reachable_listInv cfg s h
  refine ⟨hinv, ?_, ?_⟩
  · intro m b s1 hgb
    exact ⟨(get_batch_bounds cfg s m b s1 hinv hgb).1,
           (get_batch_bounds cfg s m b s1 hinv hgb).2.1⟩
  · intro e f b s1 hf hgb
    unfold push_and_get_batch at hgb
    have hinv2 := listInv_push s e f hinv hf
    exact ⟨(get_batch_bounds cfg _ _ b s1 hinv2 hgb).1,
           (get_batch_bounds cfg _ _ b s1 hinv2 hgb).2.1⟩

/-- Witness for **C10** at the freshly created batcher. -/
theorem batcher_invariant_spec_witness :
    (⟨⟨[], []⟩, 0⟩ : BatcherState ℕ ℕ).list.features.length =
      FEATURE_SIZE * (⟨⟨[], []⟩, 0⟩ : BatcherState ℕ ℕ).list.events.length ∧
    (∀ (m : ℕ) (b : Batch ℕ ℕ) (s1 : BatcherState ℕ ℕ),
      get_batch ⟨4, 1⟩ ⟨⟨[], []⟩, 0⟩ m = some (b, s1) →
      b.events.length ≤ (4 : ℕ) ∧
      b.features.length = FEATURE_SIZE * b.events.length) ∧
    (∀ (e : ℕ) (f : List ℕ) (b : Batch ℕ ℕ) (s1 : BatcherState ℕ ℕ),
      f.length = FEATURE_SIZE →
      push_and_get_batch ⟨4, 1⟩ ⟨⟨[], []⟩, 0⟩ e f = some (b, s1) →
      b.events.length ≤ (4 : ℕ) ∧
      b.features.length = FEATURE_SIZE * b.events.length) :=
  batcher_invariant_spec ⟨4, 1⟩ ⟨⟨[], []⟩, 0⟩ Reachable.init

end Batching

/-- **C1** counterexample: on a root with `total_count = 0` and a strategy
whose `try_extend` yields `Expired`, `is_done` returns false although the
claim requires true. -/
theorem TimeControl.is_done_zero_counterexample :
    TimeControl.expiredStrategy TimeControl.zeroRoot =
      TimeControl.TimeStrategyResult.Expired ∧
    TimeControl.is_done TimeControl.zeroRoot TimeControl.expiredStrategy = false :=
  ⟨rfl, rfl⟩

/-- **C1** (amended): when the root has at least one completed playout,
`is_done` returns true exactly when `try_extend` yields `Expired` or
`NotExtended`, or yields `NotExpired remaining` with
`min_promote_rollouts root > remaining`; when `total_count = 0` it returns
false regardless of the strategy. -/
theorem TimeControl.is_done_spec (root : TimeControl.Node)
    (ticket : TimeControl.Node → TimeControl.TimeStrategyResult) :
    (root.total_count ≠ 0 →
      (TimeControl.is_done root ticket = true ↔
        ticket root = TimeControl.TimeStrategyResult.Expired ∨
        ticket root = TimeControl.TimeStrategyResult.NotExtended ∨
        ∃ remaining, ticket root = TimeControl.TimeStrategyResult.NotExpired remaining ∧
          TimeControl.min_promote_rollouts root > remaining)) ∧
    (root.total_count = 0 →
      TimeControl.is_done root ticket = false) := by
  constructor
  · intro h
    unfold TimeControl.is_done
    rw [if_neg h]
    cases hr : ticket root with
    | NotExpired remaining =>
      simp only [hr, gt_iff_lt, decide_eq_true_eq]
      constructor
      · intro hlt
        exact Or.inr (Or.inr ⟨remaining, rfl, hlt⟩)
      · rintro (heq | heq | ⟨r, heq, hlt⟩)
        · simp at heq
        · simp at heq
        · injection heq with h2
          omega
    | NotExtended => simp [hr]
    | Expired => simp [hr]
    | Extended => simp [hr]
  · intro h
    unfold TimeControl.is_done
    rw [if_pos h]

/-- Witness for **C1** at a root with counts `[3, 1]` and a strategy
returning `NotExpired 1`. -/
theorem TimeControl.is_done_spec_witness :
    ((TimeControl.Node.mk 4 [3, 1]).total_count ≠ 0 →
      (TimeControl.is_done ⟨4, [3, 1]⟩
          (fun _ => TimeControl.TimeStrategyResult.NotExpired 1) = true ↔
        (fun _ => TimeControl.TimeStrategyResult.NotExpired 1) (⟨4, [3, 1]⟩ : TimeControl.Node) =
          TimeControl.TimeStrategyResult.Expired ∨
        (fun _ => TimeControl.TimeStrategyResult.NotExpired 1) (⟨4, [3, 1]⟩ : TimeControl.Node) =
          TimeControl.TimeStrategyResult.NotExtended ∨
        ∃ remaining,
          (fun _ => TimeControl.TimeStrategyResult.NotExpired 1) (⟨4, [3, 1]⟩ : TimeControl.Node) =
            TimeControl.TimeStrategyResult.NotExpired remaining ∧
          TimeControl.min_promote_rollouts ⟨4, [3, 1]⟩ > remaining)) ∧
    ((TimeControl.Node.mk 4 [3, 1]).total_count = 0 →
      TimeControl.is_done ⟨4, [3, 1]⟩
        (fun _ => TimeControl.TimeStrategyResult.NotExpired 1) = false) :=
  TimeControl.is_done_spec ⟨4, [3, 1]⟩ (fun _ => TimeControl.TimeStrategyResult.NotExpired 1)


/-- **C8**: on the board with black stones at `(1,0)`, `(0,1)` and `(1,1)`
and `(0,0)` empty, `is_eye(board, Black, (0,0))` is true and
`is_eye(board, White, (0,0))` is false. -/
theorem Options.is_eye_corner_spec :
    Options.is_eye Options.cornerBoard Color.black (0, 0) = true ∧
    Options.is_eye Options.cornerBoard Color.white (0, 0) = false := by
  decide

/-- **C9**: for a uniform draw `u ∈ [0,1)` and an integer draw
`k ∈ [-8, 8)`, `get_random_komi` returns a value in `[-7.5, 7.5]` of the
form `m + 0.5` for an integer `m`; it returns `7.5` when `u < 0.4`, `6.5`
when `u ∈ [0.4, 0.8)`, `0.5` when `u ∈ [0.8, 0.9)`, and otherwise the
uniformly drawn element `k + 0.5` of `{-7.5, -6.5, …, 7.5}`. -/
theorem Mcts.get_random_komi_spec (u : ℚ) (k : ℤ)
    (hu0 : 0 ≤ u) (hu1 : u < 1) (hk0 : -8 ≤ k) (hk1 : k < 8) :
    (-(15/2) ≤ Mcts.get_random_komi u k ∧ Mcts.get_random_komi u k ≤ 15/2) ∧
    (∃ m : ℤ, Mcts.get_random_komi u k = (m : ℚ) + 1/2) ∧
    (u < 2/5 → Mcts.get_random_komi u k = 15/2) ∧
    (2/5 ≤ u → u < 4/5 → Mcts.get_random_komi u k = 13/2) ∧
    (4/5 ≤ u → u < 9/10 → Mcts.get_random_komi u k = 1/2) ∧
    (9/10 ≤ u → Mcts.get_random_komi u k = (k : ℚ) + 1/2) := by
  unfold Mcts.get_random_komi
  split
  · refine ⟨by norm_num, ⟨7, by norm_num⟩, fun _ => rfl, ?_, ?_, ?_⟩ <;>
      intro h <;> first | (exfalso; linarith) | (intro h2; exfalso; linarith)
  · rename_i h₁
    split
    · refine ⟨by norm_num, ⟨6, by norm_num⟩, fun h => absurd h h₁, fun _ _ => rfl, ?_, ?_⟩ <;>
        rename_i h₂ <;> first
          | (intro h3 h4; exfalso; linarith)
          | (intro h3; exfalso; linarith)
    · rename_i h₂
      split
      · rename_i h₃
        refine ⟨by norm_num, ⟨0, by norm_num⟩, fun h => absurd h h₁,
          fun _ h => absurd h h₂, fun _ _ => rfl, fun h => ?_⟩
        exfalso; linarith
      · rename_i h₃
        have hle : -8 ≤ (k : ℚ) := by exact_mod_cast hk0
        have hlt : (k : ℚ) < 8 := by exact_mod_cast hk1
        refine ⟨⟨by linarith, ?_⟩, ⟨k, rfl⟩, fun h => absurd h h₁,
          fun _ h => absurd h h₂, fun _ h => absurd h h₃, fun _ => rfl⟩
        have : (k : ℚ) ≤ 7 := by
          have : k ≤ 7 := by omega
          exact_mod_cast this
        linarith

/-- Witness for **C9** at `u = 0`, `k = 0`. -/
theorem Mcts.get_random_komi_spec_witness :
    (-(15/2) ≤ Mcts.get_random_komi 0 0 ∧ Mcts.get_random_komi 0 0 ≤ 15/2) ∧
    (∃ m : ℤ, Mcts.get_random_komi 0 0 = (m : ℚ) + 1/2) ∧
    ((0 : ℚ) < 2/5 → Mcts.get_random_komi 0 0 = 15/2) ∧
    (2/5 ≤ (0 : ℚ) → (0 : ℚ) < 4/5 → Mcts.get_random_komi 0 0 = 13/2) ∧
    (4/5 ≤ (0 : ℚ) → (0 : ℚ) < 9/10 → Mcts.get_random_komi 0 0 = 1/2) ∧
    (9/10 ≤ (0 : ℚ) → Mcts.get_random_komi 0 0 = ((0 : ℤ) : ℚ) + 1/2) :=
  Mcts.get_random_komi_spec 0 0 (by norm_num) (by norm_num) (by norm_num) (by norm_num)

namespace Mcts

/-- The summed finite entries after `normalize_finite_f32` are the original
sum divided by the normalization constant. -/
theorem sum_finite_normalize_finite (policy : Fin 368 → FVal) (s : ℚ) :
    sum_finite_f32 (normalize_finite_f32 policy s) = sum_finite_f32 policy / s := by
  unfold sum_finite_f32 normalize_finite_f32
  rw [Finset.sum_div]
  refine Finset.sum_congr rfl fun i _ => ?_
  cases hv : policy i <;> simp [hv, FVal.finitePart, zero_div]

/-- **C2**: `normalize_policy` sums the finite entries; when the sum is at
least `1e-6` it divides every finite entry by the sum, after which the
finite entries sum to exactly `1`; when the sum is below `1e-6` it injects
the Dirichlet(0.03) draw (scale `1.0`) over the first 362 entries, after
which every entry with index in `[0, 362)` is finite and strictly
positive.  The Dirichlet draw is componentwise strictly positive. -/
theorem normalize_policy_spec (policy : Fin 368 → FVal) (noise : Fin 362 → ℚ)
    (hpos : ∀ i, 0 < noise i) :
    (1/1000000 ≤ sum_finite_f32 policy →
      normalize_policy noise policy =
        normalize_finite_f32 policy (sum_finite_f32 policy) ∧
      sum_finite_f32 (normalize_policy noise policy) = 1) ∧
    (sum_finite_f32 policy < 1/1000000 →
      normalize_policy noise policy = dirichlet_add_ex noise policy ∧
      ∀ i : Fin 368, i.val < 362 →
        ∃ x : ℚ, normalize_policy noise policy i = FVal.finite x ∧ 0 < x) := by
  constructor
  · intro h
    have hcond : ¬ (sum_finite_f32 policy < 1/1000000) := not_lt.2 h
    have heq : normalize_policy noise policy =
        normalize_finite_f32 policy (sum_finite_f32 policy) := by
      unfold normalize_policy
      rw [if_neg hcond]
    refine ⟨heq, ?_⟩
    rw [heq, sum_finite_normalize_finite]
    have hs : sum_finite_f32 policy ≠ 0 := by
      intro h0
      rw [h0] at h
      norm_num at h
    exact div_self hs
  · intro h
    have heq : normalize_policy noise policy = dirichlet_add_ex noise policy := by
      unfold normalize_policy
      rw [if_pos h]
    refine ⟨heq, fun i hi => ?_⟩
    rw [heq]
    unfold dirichlet_add_ex
    rw [dif_pos hi]
    exact ⟨noise ⟨i.val, hi⟩, rfl, hpos _⟩

/-- Witness for **C2** at the all-ones policy and the all-ones draw. -/
theorem normalize_policy_spec_witness :
    (1/1000000 ≤ sum_finite_f32 (fun _ => FVal.finite 1) →
      normalize_policy unitNoise (fun _ => FVal.finite 1) =
        normalize_finite_f32 (fun _ => FVal.finite 1)
          (sum_finite_f32 (fun _ => FVal.finite 1)) ∧
      sum_finite_f32 (normalize_policy unitNoise (fun _ => FVal.finite 1)) = 1) ∧
    (sum_finite_f32 (fun _ => FVal.finite 1) < 1/1000000 →
      normalize_policy unitNoise (fun _ => FVal.finite 1) =
        dirichlet_add_ex unitNoise (fun _ => FVal.finite 1) ∧
      ∀ i : Fin 368, i.val < 362 →
        ∃ x : ℚ, normalize_policy unitNoise (fun _ => FVal.finite 1) i =
          FVal.finite x ∧ 0 < x) :=
  normalize_policy_spec (fun _ => FVal.finite 1) unitNoise (fun _ => one_pos)

/-- The finite entries of `nanPolicy` sum to `1`. -/
theorem sum_finite_nanPolicy : sum_finite_f32 nanPolicy = 1 := by
  unfold sum_finite_f32
  have h : ∀ i : Fin 368,
      (nanPolicy i).finitePart = if i = (⟨1, by omega⟩ : Fin 368) then 1 else 0 := by
    intro i
    unfold nanPolicy
    by_cases h0 : i.val = 0
    · have hne : i ≠ (⟨1, by omega⟩ : Fin 368) := by
        intro he
        rw [he] at h0
        simp at h0
      rw [if_pos h0, if_neg hne]
      rfl
    · by_cases h1 : i.val = 1
      · have he : i = (⟨1, by omega⟩ : Fin 368) := Fin.ext h1
        rw [if_neg h0, if_pos h1, if_pos he]
        rfl
      · have hne : i ≠ (⟨1, by omega⟩ : Fin 368) := by
          intro he
          rw [he] at h1
          simp at h1
        rw [if_neg h0, if_neg h1, if_neg hne]
        rfl
  rw [Finset.sum_congr rfl (fun i _ => h i), Finset.sum_ite_eq']
  simp

/-- **C7** counterexample: on the policy that is `NaN` at index 0 and has
finite sum `1`, `normalize_policy` takes the division path and returns a
buffer whose entry 0 — an index in `[0, 362)` — is still `NaN`, so the
debug assertion does not hold for every input vector. -/
theorem normalize_policy_nan_counterexample :
    normalize_policy unitNoise nanPolicy ⟨0, by omega⟩ = FVal.nan := by
  unfold normalize_policy
  rw [sum_finite_nanPolicy, if_neg (by norm_num)]
  rfl

/-- **C7** (amended): for every input policy vector with no `NaN` among
its first 362 entries, no entry with index in `[0, 362)` is `NaN` after
`normalize_policy` returns, on both the division path and the
Dirichlet-noise path. -/
theorem normalize_policy_no_nan (policy : Fin 368 → FVal) (noise : Fin 362 → ℚ)
    (hnn : ∀ i : Fin 368, i.val < 362 → policy i ≠ FVal.nan) :
    ∀ i : Fin 368, i.val < 362 → normalize_policy noise policy i ≠ FVal.nan := by
  intro i hi
  unfold normalize_policy
  split
  · unfold dirichlet_add_ex
    rw [dif_pos hi]
    simp
  · unfold normalize_finite_f32
    cases hv : policy i with
    | finite x => simp [hv]
    | negInf => simp [hv]
    | posInf => simp [hv]
    | nan => exact absurd hv (hnn i hi)

/-- Witness for **C7** at the all `-inf` policy, evaluated at index 0. -/
theorem normalize_policy_no_nan_witness :
    normalize_policy unitNoise negInfPolicy ⟨0, by omega⟩ ≠ FVal.nan :=
  normalize_policy_no_nan negInfPolicy unitNoise
    (fun i _ => by simp [negInfPolicy]) ⟨0, by omega⟩ (by decide)

end Mcts

namespace Mcts

/-- Every transform appears in `ALL`. -/
theorem mem_ALL (t : Transform) : t ∈ ALL := by
  cases t <;> simp [ALL]

/-- On a board that is self-symmetric under the identity, the `target` of
every point exists (the `unreachable!()` arm of the source is dead). -/
theorem targetOf_isSome (symmB : Transform → Bool)
    (hId : symmB Transform.identity = true) (p : Fin 361) :
    ∃ m, targetOf symmB p = some m := by
  have hid_mem : Transform.identity ∈ symmetriesOf symmB :=
    List.mem_filter.2 ⟨mem_ALL _, hId⟩
  have hmem : (Transform.apply Transform.identity p).val ∈
      (symmetriesOf symmB).map (fun t => (Transform.apply t p).val) :=
    List.mem_map_of_mem _ hid_mem
  unfold targetOf
  cases hmin : ((symmetriesOf symmB).map (fun t => (Transform.apply t p).val)).min? with
  | none =>
    rw [List.min?_eq_none_iff] at hmin
    rw [hmin] at hmem
    simp at hmem
  | some m => exact ⟨m, rfl⟩

/-- The index map of `create_initial_policy` at a board point is the
point's `targetOf` value. -/
theorem create_initial_policy_indices_eval (candidate : Fin 362 → Bool)
    (symmB : Transform → Bool) (p : Fin 361) (m : ℕ)
    (hm : targetOf symmB p = some m) :
    (create_initial_policy candidate symmB).2 (pt362 p) = m := by
  have h1 : (create_initial_policy candidate symmB).2 (pt362 p) =
      (if h : p.val < 361 then (targetOf symmB ⟨p.val, h⟩).getD 0 else 361) := rfl
  rw [h1]
  split
  · show (targetOf symmB p).getD 0 = m
    rw [hm]
    rfl
  · rename_i h
    exact absurd p.isLt h

/-- **C4**: `create_initial_policy` returns an index map with
`indices[361] = 361` and, for every board point `p`, `indices[p]` the
minimum packed index of `t(p)` over all transforms under which the board
is self-symmetric (a set that always contains the identity); every point
differing from its canonical index has its policy entry set to `-inf`. -/
theorem create_initial_policy_spec (candidate : Fin 362 → Bool)
    (symmB : Transform → Bool) (hId : symmB Transform.identity = true) :
    (create_initial_policy candidate symmB).2 pass362 = 361 ∧
    (∀ p : Fin 361,
      IsLeast {n : ℕ | ∃ t, symmB t = true ∧ n = (Transform.apply t p).val}
        ((create_initial_policy candidate symmB).2 (pt362 p))) ∧
    (∀ p : Fin 361,
      p.val ≠ (create_initial_policy candidate symmB).2 (pt362 p) →
      (create_initial_policy candidate symmB).1 ⟨p.val, by have := p.isLt; omega⟩ =
        FVal.negInf) := by
  have hmin_eq_or : ∀ a b : ℕ, min a b = a ∨ min a b = b := by
    intro a b
    omega
  have hle_min_iff : ∀ a b c : ℕ, a ≤ min b c ↔ a ≤ b ∧ a ≤ c := by
    intro a b c
    omega
  refine ⟨?_, ?_, ?_⟩
  · have h1 : (create_initial_policy candidate symmB).2 pass362 =
        (if h : (361 : ℕ) < 361 then (targetOf symmB ⟨361, h⟩).getD 0 else 361) := rfl
    rw [h1, dif_neg (by omega)]
  · intro p
    obtain ⟨m, hm⟩ := targetOf_isSome symmB hId p
    rw [create_initial_policy_indices_eval candidate symmB p m hm]
    unfold targetOf at hm
    constructor
    · rcases List.mem_map.1 (List.min?_mem hmin_eq_or hm) with ⟨t, htmem, hteq⟩
      exact ⟨t, (List.mem_filter.1 htmem).2, hteq.symm⟩
    · rintro n ⟨t, hts, rfl⟩
      have hmem : (Transform.apply t p).val ∈
          (symmetriesOf symmB).map (fun t => (Transform.apply t p).val) :=
        List.mem_map_of_mem _ (List.mem_filter.2 ⟨mem_ALL t, hts⟩)
      exact (List.le_min?_iff hle_min_iff hm).1 (le_refl m) _ hmem
  · intro p hne
    obtain ⟨m, hm⟩ := targetOf_isSome symmB hId p
    rw [create_initial_policy_indices_eval candidate symmB p m hm] at hne
    have h1 : (create_initial_policy candidate symmB).1
          ⟨p.val, by have := p.isLt; omega⟩ =
        (if h : p.val < 361 then maskedEntry candidate symmB ⟨p.val, h⟩
         else initialPolicy0 candidate ⟨p.val, by have := p.isLt; omega⟩) := rfl
    rw [h1]
    split
    · show maskedEntry candidate symmB p = FVal.negInf
      unfold maskedEntry
      rw [hm]
      exact if_pos hne
    · rename_i h
      exact absurd p.isLt h

/-- Witness for **C4** at the everything-is-a-candidate checker and the
fully self-symmetric board. -/
theorem create_initial_policy_spec_witness :
    (create_initial_policy (fun _ => true) (fun _ => true)).2 pass362 = 361 ∧
    (∀ p : Fin 361,
      IsLeast {n : ℕ | ∃ t, (fun _ => true) t = true ∧ n = (Transform.apply t p).val}
        ((create_initial_policy (fun _ => true) (fun _ => true)).2 (pt362 p))) ∧
    (∀ p : Fin 361,
      p.val ≠ (create_initial_policy (fun _ => true) (fun _ => true)).2 (pt362 p) →
      (create_initial_policy (fun _ => true) (fun _ => true)).1
          ⟨p.val, by have := p.isLt; omega⟩ =
        FVal.negInf) :=
  create_initial_policy_spec (fun _ => true) (fun _ => true) rfl

end Mcts

namespace Mcts

/-- Projecting the accumulation loop of `add_valid_candidates` at one
destination entry: the entry receives, in loop order, the additions of the
source entries whose destination index is `j`. -/
theorem add_valid_candidates_proj (dst : Fin 368 → FVal) (src : Fin 362 → FVal)
    (indices : Fin 362 → Fin 368) (t : Transform) (j : Fin 368) :
    add_valid_candidates dst src indices t j =
      (((List.finRange 361).filter
          (fun p =>
            decide (indices (pt362 (Transform.apply (Transform.inverse t) p)) = j))).map
        (fun p => src (pt362 p))).foldl FVal.add
        (Function.update dst pass368 ((dst pass368).add (src pass362)) j) := by
  unfold add_valid_candidates
  generalize Function.update dst pass368 ((dst pass368).add (src pass362)) = d
  induction List.finRange 361 generalizing d with
  | nil => rfl
  | cons a tl ih =>
    rw [List.foldl_cons, ih, List.filter_cons]
    by_cases h : indices (pt362 (Transform.apply (Transform.inverse t) a)) = j
    · rw [if_pos (by simp [h])]
      simp only [List.map_cons, List.foldl_cons]
      rw [← h]
      congr 1
      exact Function.update_same _ _ _
    · rw [if_neg (by simp [h])]
      congr 1
      exact Function.update_noteq (fun he => h he.symm) _ _

/-- Folding only finite additions onto `-inf` leaves `-inf`. -/
theorem foldl_add_negInf (l : List FVal) (h : ∀ v ∈ l, v.isFinite = true) :
    l.foldl FVal.add FVal.negInf = FVal.negInf := by
  induction l with
  | nil => rfl
  | cons a tl ih =>
    have ha := h a (List.mem_cons_self a tl)
    cases a with
    | finite x =>
      rw [List.foldl_cons]
      exact ih fun v hv => h v (List.mem_cons_of_mem _ hv)
    | negInf => simp [FVal.isFinite] at ha
    | posInf => simp [FVal.isFinite] at ha
    | nan => simp [FVal.isFinite] at ha

/-- **C5**: `add_valid_candidates` adds `src[361]` to `dst[361]` and, for
every board point `p`, adds `src[p]` to `dst[indices[t⁻¹(p)]]` — each
destination entry ends as the fold of exactly its contributions
(`contribsOf`) over its previous value — and a destination entry equal to
`-inf` that receives only finite additions remains `-inf`. -/
theorem add_valid_candidates_spec (dst : Fin 368 → FVal) (src : Fin 362 → FVal)
    (indices : Fin 362 → Fin 368) (t : Transform) :
    (∀ j : Fin 368,
      add_valid_candidates dst src indices t j =
        (contribsOf src indices t j).foldl FVal.add (dst j)) ∧
    (∀ j : Fin 368, dst j = FVal.negInf →
      (∀ v ∈ contribsOf src indices t j, v.isFinite = true) →
      add_valid_candidates dst src indices t j = FVal.negInf) := by
  have hmain : ∀ j : Fin 368,
      add_valid_candidates dst src indices t j =
        (contribsOf src indices t j).foldl FVal.add (dst j) := by
    intro j
    rw [add_valid_candidates_proj]
    unfold contribsOf
    rw [List.foldl_append]
    by_cases hj : j = pass368
    · rw [if_pos hj]
      subst hj
      rw [Function.update_same]
      rfl
    · rw [if_neg hj, Function.update_noteq hj]
      rfl
  refine ⟨hmain, fun j hdst hfin => ?_⟩
  rw [hmain j, hdst]
  exact foldl_add_negInf _ hfin

/-- Witness for **C5** at the all `-inf` destination, the all-ones source,
the inclusion index map and the identity transform. -/
theorem add_valid_candidates_spec_witness :
    (∀ j : Fin 368,
      add_valid_candidates negInfPolicy (fun _ => FVal.finite 1)
          (fun i => ⟨i.val, by have := i.isLt; omega⟩) Transform.identity j =
        (contribsOf (fun _ => FVal.finite 1)
            (fun i => ⟨i.val, by have := i.isLt; omega⟩) Transform.identity j).foldl
          FVal.add (negInfPolicy j)) ∧
    (∀ j : Fin 368, negInfPolicy j = FVal.negInf →
      (∀ v ∈ contribsOf (fun _ => FVal.finite 1)
          (fun i => ⟨i.val, by have := i.isLt; omega⟩) Transform.identity j,
        v.isFinite = true) →
      add_valid_candidates negInfPolicy (fun _ => FVal.finite 1)
          (fun i => ⟨i.val, by have := i.isLt; omega⟩) Transform.identity j =
        FVal.negInf) :=
  add_valid_candidates_spec negInfPolicy (fun _ => FVal.finite 1)
    (fun i => ⟨i.val, by have := i.isLt; omega⟩) Transform.identity

/-- **C6** counterexample: a supplied starting tree whose `to_move`
(White) does not match the starting color (Black) makes the call fail
(the `assert_eq!` panics); no fresh root is created. -/
theorem adopt_starting_tree_mismatch_counterexample :
    adopt_starting_tree (some whiteTree) Color.black 0 negInfPolicy = none := rfl

/-- **C6** (amended): when a starting tree is supplied and its `to_move`
matches the starting color, the tree is adopted with its root prior over
indices `0..362` overwritten by the freshly computed policy; when the
`to_move` does not match, the call panics (`assert_eq!`); when no starting
tree is supplied, a fresh root is created. -/
theorem adopt_starting_tree_spec (t : TNode) (c : Color) (v : ℚ)
    (p : Fin 368 → FVal) :
    (t.to_move = c →
      adopt_starting_tree (some t) c v p =
        some ⟨t.to_move, t.initial_value,
              fun i => if i.val < 362 then p i else t.prior i⟩) ∧
    (t.to_move ≠ c → adopt_starting_tree (some t) c v p = none) ∧
    (adopt_starting_tree none c v p = some (TNode.new c v p)) := by
  refine ⟨?_, ?_, rfl⟩
  · intro h
    simp only [adopt_starting_tree]
    rw [if_pos h]
  · intro h
    simp only [adopt_starting_tree]
    rw [if_neg h]

/-- Witness for **C6** at a matching White starting tree. -/
theorem adopt_starting_tree_spec_witness :
    (whiteTree.to_move = Color.white →
      adopt_starting_tree (some whiteTree) Color.white 0 negInfPolicy =
        some ⟨whiteTree.to_move, whiteTree.initial_value,
              fun i => if i.val < 362 then negInfPolicy i else whiteTree.prior i⟩) ∧
    (whiteTree.to_move ≠ Color.white →
      adopt_starting_tree (some whiteTree) Color.white 0 negInfPolicy = none) ∧
    (adopt_starting_tree none Color.white 0 negInfPolicy =
      some (TNode.new Color.white 0 negInfPolicy)) :=
  adopt_starting_tree_spec whiteTree Color.white 0 negInfPolicy

end Mcts
